import Mathlib

/-!
Verification of the build pipeline of the vibe-firebase-website repository:
the Environment Injector (`scripts/inject-env.js`) and the Asset Copier
(the asset build pipeline script).

File contents are modelled as `List Char` (JavaScript strings are UTF-16
code-unit sequences, but every operation the scripts use acts
codepoint-wise, so character lists are faithful for the inputs in scope).
Directory trees are modelled by the mutual inductives `FsNode`/`FsEntries`
below, a directory being an ordered list of (name, node) entries as
returned by `fs.readdirSync`.
-/

/-- Characters written via code points to keep brace characters out of
literals: left brace. -/
def lb : Char := Char.ofNat 123

/-- Right brace. -/
def rb : Char := Char.ofNat 125

/-- Dollar sign, special in JavaScript replacement strings. -/
def dollarC : Char := Char.ofNat 36

/-- Ampersand. -/
def ampC : Char := Char.ofNat 38

/-- Backquote, special in JavaScript replacement strings. -/
def bqC : Char := Char.ofNat 96

/-- Single quote, special in JavaScript replacement strings. -/
def sqC : Char := Char.ofNat 39

/-- Hash, the dotenv comment marker. -/
def hashC : Char := Char.ofNat 35

/-- Equals sign, the dotenv key/value separator. -/
def eqc : Char := Char.ofNat 61

/-- Backslash, the regex escape character. -/
def bslash : Char := Char.ofNat 92

/-- Convert a Lean string literal to the character-list representation. -/
def chars (s : String) : List Char := s.toList

/-- JavaScript `String.prototype.trim` removes WhiteSpace and
LineTerminator code points from both ends; this is the ASCII portion,
which covers every input the scripts see. -/
def isJsSpace (c : Char) : Bool :=
  c = ' ' || c = Char.ofNat 9 || c = Char.ofNat 10 || c = Char.ofNat 11 ||
  c = Char.ofNat 12 || c = Char.ofNat 13

/-- Model of JavaScript `trim`: drop whitespace from both ends. -/
def trim (l : List Char) : List Char :=
  ((l.dropWhile isJsSpace).reverse.dropWhile isJsSpace).reverse

/-- Model of JavaScript `String.prototype.split` with a single-character
separator: `"a=b=".split("=")` is `["a", "b", ""]` and `"".split("=")`
is `[""]`. -/
def splitCh (sep : Char) : List Char → List (List Char)
  | [] => [[]]
  | c :: rest =>
    if c = sep then [] :: splitCh sep rest
    else
      match splitCh sep rest with
      | [] => [[c]]
      | h :: t => (c :: h) :: t

/-- Model of JavaScript `Array.prototype.join` with a single-character
separator. -/
def joinCh (sep : Char) : List (List Char) → List Char
  | [] => []
  | [l] => l
  | l :: rest => l ++ sep :: joinCh sep rest

/-- Model of a JavaScript object assignment `obj[k] = v` on a
string-keyed object represented as an association list in property
insertion order: an existing key keeps its position and gets the new
value, a fresh key is appended. -/
def objSet (m : List (List Char × List Char)) (k v : List Char) :
    List (List Char × List Char) :=
  if m.any (fun kv => kv.1 = k) then
    m.map (fun kv => if kv.1 = k then (k, v) else kv)
  else m ++ [(k, v)]

/-- Property lookup `obj[k]` on the association-list object model. -/
def envLookup (m : List (List Char × List Char)) (k : List Char) :
    Option (List Char) :=
  (m.find? (fun kv => kv.1 = k)).map (fun kv => kv.2)

/-- The `(key, value)` pair a single `.env` line contributes, if any:
this is the body of the `forEach` callback in `loadEnvFile`
(`scripts/inject-env.js` lines 18-26).  The line is trimmed; empty lines
and lines starting with `#` contribute nothing; otherwise
`trimmed.split('=')` destructures as `[key, ...valueParts]` and the pair
is kept only when `key` is truthy (nonempty) and `valueParts` is
nonempty; the value rejoins the remaining parts with `=`. -/
def lineKV (line : List Char) : Option (List Char × List Char) :=
  let trimmed := trim line
  if trimmed = [] then none
  else if trimmed.head? = some hashC then none
  else
    match splitCh eqc trimmed with
    | [] => none
    | [_] => none
    | key :: v :: vs =>
      if key = [] then none
      else some (trim key, trim (joinCh eqc (v :: vs)))

/-- One step of the `forEach` over lines in `loadEnvFile`: apply the
line's assignment, if any, to the accumulating `envVars` object. -/
def parseEnvLine (m : List (List Char × List Char)) (line : List Char) :
    List (List Char × List Char) :=
  match lineKV line with
  | none => m
  | some kv => objSet m kv.1 kv.2

/-- The parsing part of `loadEnvFile` (`scripts/inject-env.js` lines
15-28): split the file on newlines and fold the per-line assignment over
an initially empty object. -/
def parseEnv (contents : List Char) : List (List Char × List Char) :=
  (splitCh (Char.ofNat 10) contents).foldl parseEnvLine []

/-- The error message printed when `.env` is missing
(`scripts/inject-env.js` line 11). -/
def envNotFoundMsg : List Char :=
  chars ".env file not found. Please create one based on .env.example"

/-- Model of `loadEnvFile` (`scripts/inject-env.js` lines 7-29): the
`.env` file is either absent (`none`) or present with some contents; an
absent file is a fatal error (`process.exit(1)` after printing the
message), a present file is parsed. -/
def loadEnvFile (envFileContents : Option (List Char)) :
    Except (List Char) (List (List Char × List Char)) :=
  match envFileContents with
  | none => .error envNotFoundMsg
  | some contents => .ok (parseEnv contents)

/-- The character class `[.*+?^${}()|[\]\\]` used by
`replacePlaceholders` (`scripts/inject-env.js` line 39) to escape the
placeholder before building a `RegExp` from it. -/
def isRegexSpecial (c : Char) : Bool :=
  c = '.' || c = '*' || c = '+' || c = '?' || c = '^' || c = dollarC ||
  c = lb || c = rb || c = '(' || c = ')' || c = '|' || c = '[' ||
  c = ']' || c = bslash

/-- Model of `placeholder.replace(/[.*+?^${}()|[\]\\]/g, '\\$&')`: a
backslash is inserted before every regex-special character. -/
def escapeRegExp : List Char → List Char
  | [] => []
  | c :: rest =>
    if isRegexSpecial c then bslash :: c :: escapeRegExp rest
    else c :: escapeRegExp rest

/-- The literal string matched by a regex whose source consists only of
ordinary characters and backslash-escaped characters, as produced by
`escapeRegExp`: a backslash-escaped character matches itself.  (On such
fully-escaped sources this is exactly ECMAScript pattern semantics; the
script only ever builds regexes of this shape.) -/
def regexLitDenote : List Char → List Char
  | [] => []
  | [c] => if c = bslash then [] else [c]
  | c :: d :: rest =>
    if c = bslash then d :: regexLitDenote rest
    else c :: regexLitDenote (d :: rest)

/-- ECMAScript `GetSubstitution` for a replacement string against a
regex with no capture groups: `$$` yields `$`, `$&` yields the matched
text, a backquote after `$` yields the part of the original string
before the match, a quote after `$` yields the part after the match, and
any other `$` (including `$1`, `$<`, or a trailing `$`) is literal. -/
def expandRepl (matched before after : List Char) : List Char → List Char
  | [] => []
  | [c] => [c]
  | c :: d :: rest =>
    if c = dollarC then
      if d = dollarC then dollarC :: expandRepl matched before after rest
      else if d = ampC then matched ++ expandRepl matched before after rest
      else if d = bqC then before ++ expandRepl matched before after rest
      else if d = sqC then after ++ expandRepl matched before after rest
      else dollarC :: expandRepl matched before after (d :: rest)
    else c :: expandRepl matched before after (d :: rest)

/-- Fuelled scanner implementing `str.replace(regex, rep)` with the `g`
flag for a literal pattern `p :: ps`: scan left to right; where the
pattern matches, emit the `GetSubstitution` of `rep` for that match and
resume after it (a global replace never rescans replaced text); `pre` is
the already-scanned part of the original string.  The fuel only makes
the recursion structural: every call site supplies fuel at least the
length of the string, and each step consumes at least one character per
unit of fuel, so the `0` case is never reached (`scanFuel_fuelIrrel`
below). -/
def scanFuel (p : Char) (ps rep : List Char) :
    Nat → List Char → List Char → List Char
  | _, _, [] => []
  | 0, _, s => s
  | fuel + 1, pre, c :: rest =>
    if (p :: ps).isPrefixOf (c :: rest) then
      expandRepl (p :: ps) pre (rest.drop ps.length) rep
        ++ scanFuel p ps rep fuel (pre ++ p :: ps) (rest.drop ps.length)
    else c :: scanFuel p ps rep fuel (pre ++ [c]) rest

/-- Global regex replace of the literal pattern `p :: ps` by replacement
string `rep` in `s`, with `pre` the part of the original string already
consumed (needed for the backquote/quote substitutions). -/
def jsReplaceAllAux (p : Char) (ps rep pre s : List Char) : List Char :=
  scanFuel p ps rep s.length pre s

/-- The `{{KEY}}` placeholder for a key (written with explicit brace
characters). -/
def placeholderOf (key : List Char) : List Char :=
  lb :: lb :: (key ++ [rb, rb])

/-- One iteration of the `forEach` in `replacePlaceholders`
(`scripts/inject-env.js` lines 36-40): build the placeholder for `key`,
escape it, build a global regex from the escaped source, and replace
with `value` under JavaScript replacement-string semantics. -/
def replaceOne (content key value : List Char) : List Char :=
  match regexLitDenote (escapeRegExp (placeholderOf key)) with
  | [] => content
  | p :: ps => jsReplaceAllAux p ps value [] content

/-- Model of `replacePlaceholders` (`scripts/inject-env.js` lines
32-43): fold the per-key replacement over the entries of `envVars` in
key enumeration order. -/
def replacePlaceholders (content : List Char)
    (envVars : List (List Char × List Char)) : List Char :=
  envVars.foldl (fun acc kv => replaceOne acc kv.1 kv.2) content

/-- Fuelled scanner for the spec-side verbatim replacement; as with
`scanFuel` the fuel only makes the recursion structural and the `0` case
is unreachable from `replaceAllVerbatim`. -/
def verbFuel (p : Char) (ps rep : List Char) : Nat → List Char → List Char
  | _, [] => []
  | 0, s => s
  | fuel + 1, c :: rest =>
    if (p :: ps).isPrefixOf (c :: rest) then
      rep ++ verbFuel p ps rep fuel (rest.drop ps.length)
    else c :: verbFuel p ps rep fuel rest

/-- Modelled from the spec: global literal replacement in which every
occurrence of the literal pattern `p :: ps` is replaced by `rep`
verbatim ("replace all literal occurrences ... with the corresponding
value", replacement "global"). -/
def replaceAllVerbatim (p : Char) (ps rep s : List Char) : List Char :=
  verbFuel p ps rep s.length s

/-- Modelled from the spec: placeholder substitution in which each key's
`{{KEY}}` occurrences are replaced by the key's value verbatim. -/
def specReplacePlaceholders (content : List Char)
    (envVars : List (List Char × List Char)) : List Char :=
  envVars.foldl (fun acc kv =>
    match placeholderOf kv.1 with
    | [] => acc
    | p :: ps => replaceAllVerbatim p ps kv.2 acc) content

/-- A string containing neither brace character. -/
def braceFree (l : List Char) : Bool :=
  l.all (fun c => !(c == lb) && !(c == rb))

/-- A string containing no dollar sign (such a string is its own
`GetSubstitution` expansion). -/
def noDollar (l : List Char) : Bool :=
  l.all (fun c => !(c == dollarC))

/-- Occurrence of `t` as a contiguous substring of `s`. -/
def InfixOf (t s : List Char) : Prop :=
  ∃ x y, s = x ++ t ++ y

mutual
/-- A filesystem node: a regular file with contents, or a directory. -/
inductive FsNode where
  | file : List Char → FsNode
  | dir : FsEntries → FsNode
/-- Ordered directory entries (name, node), as listed by
`fs.readdirSync`. -/
inductive FsEntries where
  | nil : FsEntries
  | cons : List Char → FsNode → FsEntries → FsEntries
end

deriving instance DecidableEq for FsNode, FsEntries

/-- The skipped documentation file name. -/
def readmeName : List Char := chars "README.md"

/-- First entry with the given name, if any. -/
def lookupE : FsEntries → List Char → Option FsNode
  | .nil, _ => none
  | .cons m v rest, n => if m = n then some v else lookupE rest n

/-- Writing node `v` at name `n` in a directory: an existing entry is
overwritten in place, a fresh name is appended (models `writeFileSync`,
`copyFileSync` and `mkdirSync` at an entry). -/
def setEntry : FsEntries → List Char → FsNode → FsEntries
  | .nil, n, v => .cons n v .nil
  | .cons m w rest, n, v =>
    if m = n then .cons n v rest else .cons m w (setEntry rest n v)

/-- The entries of the destination child directory named `n`: the
existing entries when a directory of that name already exists, empty
otherwise (`mkdirSync` when missing).  A pre-existing regular file where
a directory is needed is outside the model (the script would throw). -/
def childDir (des : FsEntries) (n : List Char) : FsEntries :=
  match lookupE des n with
  | some (.dir d) => d
  | _ => .nil

/-- Node at a (nonempty) relative path. -/
def lookupPath : FsEntries → List (List Char) → Option FsNode
  | _, [] => none
  | es, [n] => lookupE es n
  | es, n :: ns =>
    match lookupE es n with
    | some (.dir d) => lookupPath d ns
    | _ => none

/-- Model of `AssetPipeline.copyRecursive(src, dest)` (asset pipeline
script lines 34-67) for an existing source directory with entries `ses`
and destination directory entries `des`: walk the source entries in
order; an entry named `README.md` is skipped whether directory or file;
a directory entry is created at the destination if missing and copied
into recursively; a file entry is byte-copied. -/
def copyRecursive : FsEntries → FsEntries → FsEntries
  | .nil, des => des
  | .cons n (.dir sub) rest, des =>
    copyRecursive rest
      (if n = readmeName then des
       else setEntry des n (.dir (copyRecursive sub (childDir des n))))
  | .cons n (.file c) rest, des =>
    copyRecursive rest
      (if n = readmeName then des else setEntry des n (.file c))

/-- Result of a `copyAssets` run: the destination directory afterwards
(`none` would mean it does not exist) and whether the missing-source
warning was logged. -/
structure CopyResult where
  dest : Option FsEntries
  warned : Bool
deriving DecidableEq

/-- Model of `AssetPipeline.copyAssets` (asset pipeline script lines
17-29): the source directory either does not exist (`none`) or has
entries; likewise the destination.  The destination directory is created
first when missing; then `copyRecursive` runs, whose existence check on
the source logs a warning and returns when the source is missing. -/
def copyAssets (srcOpt destOpt : Option FsEntries) : CopyResult :=
  let d0 := destOpt.getD .nil
  match srcOpt with
  | none => ⟨some d0, true⟩
  | some ses => ⟨some (copyRecursive ses d0), false⟩

/-- Model of `processFiles(sourceDir, targetDir, envVars)`
(`scripts/inject-env.js` lines 46-66) for an existing source directory
with entries `ses` and target directory entries `des`: walk the source
entries in order; a directory is recursed into (the target child created
if missing); a file's content has placeholders replaced and is written
to the target. -/
def processFiles (env : List (List Char × List Char)) :
    FsEntries → FsEntries → FsEntries
  | .nil, des => des
  | .cons n (.dir sub) rest, des =>
    processFiles env rest
      (setEntry des n (.dir (processFiles env sub (childDir des n))))
  | .cons n (.file c) rest, des =>
    processFiles env rest
      (setEntry des n (.file (replacePlaceholders c env)))

/-- Spec-level description of a fresh injector output tree: the source
tree with every file's contents transformed by `replacePlaceholders`. -/
def injectEntries (env : List (List Char × List Char)) :
    FsEntries → FsEntries
  | .nil => .nil
  | .cons n (.dir sub) rest =>
    .cons n (.dir (injectEntries env sub)) (injectEntries env rest)
  | .cons n (.file c) rest =>
    .cons n (.file (replacePlaceholders c env)) (injectEntries env rest)

/-- Whether a name occurs among directory entries. -/
def hasName : FsEntries → List Char → Bool
  | .nil, _ => false
  | .cons m _ rest, n => m == n || hasName rest n

/-- Wellformedness of a real directory tree: entry names are unique at
every level (a filesystem guarantee). -/
def wfEntries : FsEntries → Bool
  | .nil => true
  | .cons n (.file _) rest => !(hasName rest n) && wfEntries rest
  | .cons n (.dir sub) rest =>
    !(hasName rest n) && wfEntries sub && wfEntries rest

/-- The filesystem state the Environment Injector touches: the `.env`
file (contents, or `none` when absent), the source tree `src/js` and the
destination tree `public/js`. -/
structure InjectorState where
  envFile : Option (List Char)
  srcTree : Option FsNode
  destTree : Option FsNode
deriving DecidableEq

/-- Result of one `main()` run of the injector: the final filesystem
state, the process exit code, and the error messages printed. -/
structure RunResult where
  state : InjectorState
  exitCode : Nat
  errors : List (List Char)
deriving DecidableEq

/-- Model of `main()` (`scripts/inject-env.js` lines 69-103): load the
`.env` file (exiting with code 1 and the error message when it is
missing, before anything else happens); then delete the destination
tree; then rebuild it by `processFiles` from the source tree.  When the
source tree is not a directory, `processFiles` has already created the
empty destination directory before `readdirSync` throws, and the
top-level catch exits with code 1.  Console progress messages on the
success path are not modelled; `errors` records error output. -/
def mainRun (st : InjectorState) : RunResult :=
  match loadEnvFile st.envFile with
  | .error msg => ⟨st, 1, [msg]⟩
  | .ok envVars =>
    match st.srcTree with
    | some (.dir ses) =>
      ⟨{ st with destTree := some (.dir (processFiles envVars ses .nil)) },
        0, []⟩
    | _ =>
      ⟨{ st with destTree := some (.dir .nil) }, 1,
        [chars "Error injecting environment variables"]⟩

/-- Node at a path under an optional directory root. -/
def lookupPathD (root : Option FsNode) (p : List (List Char)) :
    Option FsNode :=
  match root with
  | some (.dir es) => lookupPath es p
  | _ => none

/-- Modelled from the spec (amended): the per-line dotenv parsing rule
-- trim the line; skip it when empty or when it starts with `#`;
otherwise split at the first `=`; skip the line when it has no `=` or
nothing before the first `=`; else map the trimmed text before the first
`=` to the trimmed remainder after it. -/
def specParseLine (m : List (List Char × List Char)) (line : List Char) :
    List (List Char × List Char) :=
  let t := trim line
  if t = [] then m
  else if t.head? = some hashC then m
  else
    match t.dropWhile (fun c => !(c == eqc)) with
    | [] => m
    | _ :: after =>
      let before := t.takeWhile (fun c => !(c == eqc))
      if before = [] then m
      else objSet m (trim before) (trim after)

/-- Concatenation of directory entry lists. -/
def appendE : FsEntries → FsEntries → FsEntries
  | .nil, es => es
  | .cons n v rest, es => .cons n v (appendE rest es)

/-- No entry name of the first directory occurs in the second. -/
def namesFresh : FsEntries → FsEntries → Bool
  | .nil, _ => true
  | .cons n _ rest, des => !(hasName des n) && namesFresh rest des

example : parseEnv (chars "A=1") = [(chars "A", chars "1")] := by decide

example : parseEnv (chars " FOO = a=b=c \n# c\n\nBAR=2") =
    [(chars "FOO", chars "a=b=c"), (chars "BAR", chars "2")] := by decide

example : parseEnv (chars "A=1\nA=2") = [(chars "A", chars "2")] := by decide

example : parseEnv (chars "=x") = [] := by decide

example : parseEnv (chars "NOEQ") = [] := by decide

example : replacePlaceholders (chars "x\x7b\x7bA\x7d\x7dy\x7b\x7bA\x7d\x7d")
    [(chars "A", chars "1")] = chars "x1y1" := by decide

example : replacePlaceholders (chars "\x7b\x7bA.B\x7d\x7d")
    [(chars "A.B", chars "v")] = chars "v" := by decide

example : replacePlaceholders (chars "\x7b\x7bAxB\x7d\x7d")
    [(chars "A.B", chars "v")] = chars "\x7b\x7bAxB\x7d\x7d" := by decide

example : replacePlaceholders (chars "\x7b\x7bA\x7d\x7d")
    [(chars "A", chars "$$")] = chars "$" := by decide

example : replacePlaceholders (chars "\x7b\x7bA\x7d\x7d")
    [(chars "A", chars "\x7b\x7bB\x7d\x7d"), (chars "B", chars "bee")] =
    chars "bee" := by decide

example : copyRecursive
    (.cons (chars "a") (.dir (.cons readmeName (.file (chars "doc"))
      (.cons (chars "b.png") (.file (chars "img")) .nil))) .nil) .nil =
    .cons (chars "a") (.dir (.cons (chars "b.png") (.file (chars "img"))
      .nil)) .nil := by decide

example : copyAssets none none = ⟨some .nil, true⟩ := by decide

theorem scanFuel_irrel (p : Char) (ps rep : List Char) :
    ∀ f g (s pre : List Char), s.length ≤ f → s.length ≤ g →
      scanFuel p ps rep f pre s = scanFuel p ps rep g pre s := by
  intro f
  induction f with
  | zero =>
    intro g s pre hf _
    have : s = [] := List.eq_nil_of_length_eq_zero (Nat.le_zero.mp hf)
    subst this
    cases g <;> rfl
  | succ f ih =>
    intro g s pre hf hg
    cases s with
    | nil => cases g <;> rfl
    | cons c rest =>
      cases g with
      | zero => simp at hg
      | succ g =>
        simp only [scanFuel]
        by_cases hm : (p :: ps).isPrefixOf (c :: rest)
        · simp only [hm, if_true]
          have h1 : (rest.drop ps.length).length ≤ f := by
            have := List.length_drop ps.length rest
            simp only [List.length_cons] at hf
            omega
          have h2 : (rest.drop ps.length).length ≤ g := by
            have := List.length_drop ps.length rest
            simp only [List.length_cons] at hg
            omega
          rw [ih g _ _ h1 h2]
        · simp only [hm, if_false]
          have h1 : rest.length ≤ f := by
            simp only [List.length_cons] at hf; omega
          have h2 : rest.length ≤ g := by
            simp only [List.length_cons] at hg; omega
          rw [ih g _ _ h1 h2]
          simp

theorem jsRA_nil (p : Char) (ps rep pre : List Char) :
    jsReplaceAllAux p ps rep pre [] = [] := rfl

theorem jsRA_cons_pos (p : Char) (ps rep pre : List Char) {c : Char}
    {rest : List Char} (h : (p :: ps).isPrefixOf (c :: rest) = true) :
    jsReplaceAllAux p ps rep pre (c :: rest) =
      expandRepl (p :: ps) pre (rest.drop ps.length) rep
        ++ jsReplaceAllAux p ps rep (pre ++ p :: ps) (rest.drop ps.length) := by
  show scanFuel p ps rep (rest.length + 1) pre (c :: rest) = _
  simp only [scanFuel, h, if_true]
  rw [scanFuel_irrel p ps rep rest.length (rest.drop ps.length).length]
  · rfl
  · simp [List.length_drop]
  · exact le_rfl

theorem jsRA_cons_neg (p : Char) (ps rep pre : List Char) {c : Char}
    {rest : List Char} (h : (p :: ps).isPrefixOf (c :: rest) = false) :
    jsReplaceAllAux p ps rep pre (c :: rest) =
      c :: jsReplaceAllAux p ps rep (pre ++ [c]) rest := by
  show scanFuel p ps rep (rest.length + 1) pre (c :: rest) = _
  simp only [scanFuel, h, if_false, Bool.false_eq_true]
  rfl

theorem verbFuel_irrel (p : Char) (ps rep : List Char) :
    ∀ f g (s : List Char), s.length ≤ f → s.length ≤ g →
      verbFuel p ps rep f s = verbFuel p ps rep g s := by
  intro f
  induction f with
  | zero =>
    intro g s hf _
    have : s = [] := List.eq_nil_of_length_eq_zero (Nat.le_zero.mp hf)
    subst this
    cases g <;> rfl
  | succ f ih =>
    intro g s hf hg
    cases s with
    | nil => cases g <;> rfl
    | cons c rest =>
      cases g with
      | zero => simp at hg
      | succ g =>
        simp only [verbFuel]
        by_cases hm : (p :: ps).isPrefixOf (c :: rest)
        · simp only [hm, if_true]
          have h1 : (rest.drop ps.length).length ≤ f := by
            have := List.length_drop ps.length rest
            simp only [List.length_cons] at hf
            omega
          have h2 : (rest.drop ps.length).length ≤ g := by
            have := List.length_drop ps.length rest
            simp only [List.length_cons] at hg
            omega
          rw [ih g _ h1 h2]
        · simp only [hm, if_false]
          have h1 : rest.length ≤ f := by
            simp only [List.length_cons] at hf; omega
          have h2 : rest.length ≤ g := by
            simp only [List.length_cons] at hg; omega
          rw [ih g _ h1 h2]
          simp

theorem verb_nil (p : Char) (ps rep : List Char) :
    replaceAllVerbatim p ps rep [] = [] := rfl

theorem verb_cons_pos (p : Char) (ps rep : List Char) {c : Char}
    {rest : List Char} (h : (p :: ps).isPrefixOf (c :: rest) = true) :
    replaceAllVerbatim p ps rep (c :: rest) =
      rep ++ replaceAllVerbatim p ps rep (rest.drop ps.length) := by
  show verbFuel p ps rep (rest.length + 1) (c :: rest) = _
  simp only [verbFuel, h, if_true]
  rw [verbFuel_irrel p ps rep rest.length (rest.drop ps.length).length]
  · rfl
  · simp [List.length_drop]
  · exact le_rfl

theorem verb_cons_neg (p : Char) (ps rep : List Char) {c : Char}
    {rest : List Char} (h : (p :: ps).isPrefixOf (c :: rest) = false) :
    replaceAllVerbatim p ps rep (c :: rest) =
      c :: replaceAllVerbatim p ps rep rest := by
  show verbFuel p ps rep (rest.length + 1) (c :: rest) = _
  simp only [verbFuel, h]
  simp
  rfl

theorem isRegexSpecial_bslash : isRegexSpecial bslash = true := by decide

theorem regexLitDenote_escape : ∀ l, regexLitDenote (escapeRegExp l) = l := by
  intro l
  induction l with
  | nil => rfl
  | cons c rest ih =>
    by_cases hc : isRegexSpecial c = true
    · simp only [escapeRegExp, hc, if_true, regexLitDenote, if_pos rfl]
      rw [ih]
    · have hcb : ¬ c = bslash := by
        intro hb; rw [hb, isRegexSpecial_bslash] at hc; exact hc rfl
      simp only [escapeRegExp, hc, if_false]
      cases hr : escapeRegExp rest with
      | nil =>
        have hrest : rest = [] := by
          cases rest with
          | nil => rfl
          | cons d t =>
            revert hr
            simp only [escapeRegExp]
            split <;> simp
        subst hrest
        simp only [regexLitDenote, if_neg hcb]
      | cons d t =>
        simp only [regexLitDenote, if_neg hcb]
        rw [← hr, ih]

theorem expandRepl_noDollar (matched before after : List Char) :
    ∀ n l, l.length ≤ n → noDollar l = true →
      expandRepl matched before after l = l := by
  intro n
  induction n with
  | zero =>
    intro l h _
    have : l = [] := List.eq_nil_of_length_eq_zero (Nat.le_zero.mp h)
    subst this; rfl
  | succ n ih =>
    intro l h hnd
    match l with
    | [] => rfl
    | [c] => rfl
    | c :: d :: rest =>
      simp only [noDollar, List.all_cons, Bool.and_eq_true, Bool.not_eq_eq_eq_not,
        Bool.not_true, beq_eq_false_iff_ne, ne_eq] at hnd
      have hc : ¬ c = dollarC := hnd.1
      simp only [expandRepl, if_neg hc]
      congr 1
      refine ih (d :: rest) ?_ ?_
      · simp only [List.length_cons] at h ⊢; omega
      · simp only [noDollar, List.all_cons, Bool.and_eq_true, Bool.not_eq_eq_eq_not,
          Bool.not_true, beq_eq_false_iff_ne, ne_eq]
        exact ⟨hnd.2.1, hnd.2.2⟩

theorem jsRA_eq_verbatim (p : Char) (ps rep : List Char)
    (hrep : noDollar rep = true) :
    ∀ n s pre, s.length ≤ n →
      jsReplaceAllAux p ps rep pre s = replaceAllVerbatim p ps rep s := by
  intro n
  induction n with
  | zero =>
    intro s pre h
    have : s = [] := List.eq_nil_of_length_eq_zero (Nat.le_zero.mp h)
    subst this; rfl
  | succ n ih =>
    intro s pre h
    cases s with
    | nil => rfl
    | cons c rest =>
      by_cases hm : (p :: ps).isPrefixOf (c :: rest) = true
      · rw [jsRA_cons_pos p ps rep pre hm, verb_cons_pos p ps rep hm,
          expandRepl_noDollar (p :: ps) pre (rest.drop ps.length) rep.length rep
            le_rfl hrep,
          ih (rest.drop ps.length) (pre ++ p :: ps) ?_]
        have := List.length_drop ps.length rest
        simp only [List.length_cons] at h
        omega
      · have hm2 : (p :: ps).isPrefixOf (c :: rest) = false :=
          Bool.not_eq_true _ ▸ Bool.of_not_eq_true hm
        rw [jsRA_cons_neg p ps rep pre hm2, verb_cons_neg p ps rep hm2,
          ih rest (pre ++ [c]) ?_]
        simp only [List.length_cons] at h
        omega

/-- C1 counterexample: the claim promises the value is inserted verbatim,
but with the value `$$` (a JavaScript replacement-string escape) the code
inserts `$`: `replacePlaceholders` on content `{{A}}` with mapping
`A ↦ $$` yields `$`, while the spec-side verbatim substitution yields
`$$`. -/
theorem replacePlaceholders_dollar_counterexample :
    replacePlaceholders (chars "\x7b\x7bA\x7d\x7d")
        [(chars "A", chars "$$")] = chars "$" ∧
    specReplacePlaceholders (chars "\x7b\x7bA\x7d\x7d")
        [(chars "A", chars "$$")] = chars "$$" ∧
    chars "$" ≠ chars "$$" := by
  refine ⟨by decide, ?_, by decide⟩
  decide

/-- C1 (amended): for every content string and environment mapping whose
values contain no `$`, `replacePlaceholders` coincides with the spec-side
substitution replacing, for each key in enumeration order, every
occurrence of the literal token `{{KEY}}` by the key's value verbatim;
moreover the regex source built for each key denotes the placeholder
literally (keys containing regex metacharacters are matched literally,
not as pattern syntax).  Values containing `$` are instead interpreted
under JavaScript replacement-string semantics. -/
theorem replacePlaceholders_verbatim_of_noDollar (content : List Char)
    (kvs : List (List Char × List Char))
    (hv : ∀ kv ∈ kvs, noDollar kv.2 = true) :
    replacePlaceholders content kvs = specReplacePlaceholders content kvs ∧
    ∀ k, regexLitDenote (escapeRegExp (placeholderOf k)) = placeholderOf k := by
  refine ⟨?_, fun k => regexLitDenote_escape _⟩
  induction kvs generalizing content with
  | nil => rfl
  | cons kv rest ih =>
    have hstep : replaceOne content kv.1 kv.2 =
        replaceAllVerbatim lb (lb :: (kv.1 ++ [rb, rb])) kv.2 content := by
      unfold replaceOne
      rw [regexLitDenote_escape]
      exact jsRA_eq_verbatim lb (lb :: (kv.1 ++ [rb, rb])) kv.2
        (hv kv (List.mem_cons_self _ _)) content.length content [] le_rfl
    show replacePlaceholders (replaceOne content kv.1 kv.2) rest = _
    rw [hstep]
    exact ih _ (fun x hx => hv x (List.mem_cons_of_mem _ hx))

theorem replacePlaceholders_verbatim_witness :
    (∀ kv ∈ [(chars "A.B", chars "v")], noDollar kv.2 = true) ∧
    (replacePlaceholders (chars "x\x7b\x7bA.B\x7d\x7dy")
        [(chars "A.B", chars "v")] =
      specReplacePlaceholders (chars "x\x7b\x7bA.B\x7d\x7dy")
        [(chars "A.B", chars "v")]) :=
  ⟨by decide, (replacePlaceholders_verbatim_of_noDollar _ _ (by decide)).1⟩

/-- C10: `replacePlaceholders` applies the per-key substitutions
sequentially over the whole content in key-enumeration order, not
simultaneously: with mapping `A ↦ {{B}}, B ↦ bee` and content `{{A}}`,
the output is `bee` — the placeholder introduced by A's value is
rewritten by the later key B — rather than A's value `{{B}}` verbatim. -/
theorem replacePlaceholders_sequential :
    replacePlaceholders (chars "\x7b\x7bA\x7d\x7d")
        [(chars "A", chars "\x7b\x7bB\x7d\x7d"), (chars "B", chars "bee")] =
      chars "bee" ∧
    chars "bee" ≠ chars "\x7b\x7bB\x7d\x7d" := by
  exact ⟨by decide, by decide⟩

theorem splitCh_ne_nil (sep : Char) : ∀ l, splitCh sep l ≠ [] := by
  intro l
  cases l with
  | nil => simp [splitCh]
  | cons c rest =>
    simp only [splitCh]
    by_cases h : c = sep
    · simp [h]
    · simp only [h, if_false]
      cases hr : splitCh sep rest <;> simp

theorem joinCh_splitCh (sep : Char) : ∀ l, joinCh sep (splitCh sep l) = l := by
  intro l
  induction l with
  | nil => rfl
  | cons c rest ih =>
    by_cases h : c = sep
    · subst h
      simp only [splitCh, if_pos rfl]
      cases hr : splitCh c rest with
      | nil => exact absurd hr (splitCh_ne_nil c rest)
      | cons s t =>
        rw [hr] at ih
        simp only [joinCh, List.nil_append]
        rw [ih]
    · simp only [splitCh, h, if_false]
      cases hr : splitCh sep rest with
      | nil => exact absurd hr (splitCh_ne_nil sep rest)
      | cons s t =>
        rw [hr] at ih
        cases t with
        | nil =>
          simp only [joinCh] at ih ⊢
          rw [ih]
        | cons u v =>
          simp only [joinCh] at ih ⊢
          rw [List.cons_append, ih]

theorem splitCh_no_sep (sep : Char) : ∀ t,
    t.dropWhile (fun c => !(c == sep)) = [] → splitCh sep t = [t] := by
  intro t
  induction t with
  | nil => intro _; rfl
  | cons c rest ih =>
    intro h
    rw [List.dropWhile_cons] at h
    by_cases hc : c = sep
    · rw [if_neg (by simp [hc])] at h
      exact absurd h (by simp)
    · rw [if_pos (by simp [hc])] at h
      simp only [splitCh, hc, if_false, ih h]

theorem splitCh_with_sep (sep : Char) : ∀ t after,
    t.dropWhile (fun c => !(c == sep)) = sep :: after →
    splitCh sep t =
      (t.takeWhile (fun c => !(c == sep))) :: splitCh sep after := by
  intro t
  induction t with
  | nil => intro after h; simp at h
  | cons c rest ih =>
    intro after h
    rw [List.dropWhile_cons] at h
    by_cases hc : c = sep
    · rw [if_neg (by simp [hc])] at h
      obtain ⟨-, h2⟩ := List.cons.inj h
      subst h2
      simp only [splitCh, hc, if_pos rfl, List.takeWhile_cons]
      simp
    · rw [if_pos (by simp [hc])] at h
      simp only [splitCh, hc, if_false, ih after h, List.takeWhile_cons,
        if_pos (by simp [hc] : (!(c == sep)) = true)]

theorem dropWhile_head_not (p : Char → Bool) :
    ∀ (l : List Char) (e : Char) (after : List Char),
    l.dropWhile p = e :: after → p e = false := by
  intro l
  induction l with
  | nil => intro e a h; simp at h
  | cons c rest ih =>
    intro e a h
    rw [List.dropWhile_cons] at h
    by_cases hc : p c = true
    · rw [if_pos hc] at h; exact ih e a h
    · rw [if_neg hc] at h
      obtain ⟨h1, -⟩ := List.cons.inj h
      subst h1
      exact Bool.not_eq_true _ ▸ Bool.of_not_eq_true hc

/-- C3 (amended): the per-line parsing of `loadEnvFile` coincides with
the spec rule amended for empty keys: trim the line; skip it when empty
or when it starts with `#`; otherwise split at the first `=`; a line
with no `=` — or, the amendment, with nothing before its first `=` —
yields no entry; any other line maps the trimmed text before the first
`=` to the trimmed remainder after it (later `=` characters belong to
the value). -/
theorem parseEnvLine_spec (m : List (List Char × List Char))
    (line : List Char) : parseEnvLine m line = specParseLine m line := by
  unfold parseEnvLine lineKV specParseLine
  by_cases h1 : trim line = []
  · simp [h1]
  · simp only [h1, if_false]
    by_cases h2 : (trim line).head? = some hashC
    · simp [h2]
    · simp only [h2, if_false]
      cases hd : (trim line).dropWhile (fun c => !(c == eqc)) with
      | nil =>
        rw [splitCh_no_sep eqc _ hd]
      | cons e after =>
        have he : e = eqc := by
          have := dropWhile_head_not (fun c => !(c == eqc)) _ _ _ hd
          simpa using this
        subst he
        rw [splitCh_with_sep eqc _ after hd]
        cases hs : splitCh eqc after with
        | nil => exact absurd hs (splitCh_ne_nil eqc after)
        | cons v vs =>
          by_cases hk : (trim line).takeWhile (fun c => !(c == eqc)) = []
          · simp [hk]
          · simp only [hk, if_false]
            have : joinCh eqc (v :: vs) = after := by
              rw [← hs, joinCh_splitCh]
            rw [this]

/-- C3 counterexample: the line `=x` is non-blank, is not a comment and
contains `=`, so the claim prescribes the mapping entry ("", "x") (the
trimmed text before the first `=` is empty); the code's truthiness check
on the raw key instead drops the line, and `loadEnvFile` returns the
empty mapping. -/
theorem parseEnv_empty_key_counterexample :
    parseEnv (chars "=x") = [] ∧
    ([] : List (List Char × List Char)) ≠ [(chars "", chars "x")] := by
  exact ⟨by decide, by decide⟩

/-- C4: when the `.env` file is absent, the injector prints the
identifiable error message and exits with code 1, and the filesystem
state — in particular the destination tree — is neither created, deleted
nor modified: the destination wipe happens only after `.env` has been
loaded successfully. -/
theorem mainRun_missing_env (st : InjectorState) (h : st.envFile = none) :
    mainRun st = ⟨st, 1, [envNotFoundMsg]⟩ := by
  unfold mainRun loadEnvFile
  rw [h]

theorem mainRun_missing_env_witness :
    mainRun ⟨none, some (FsNode.dir .nil),
        some (FsNode.dir (.cons (chars "old.js") (.file (chars "x")) .nil))⟩ =
      ⟨⟨none, some (FsNode.dir .nil),
        some (FsNode.dir (.cons (chars "old.js") (.file (chars "x")) .nil))⟩,
       1, [envNotFoundMsg]⟩ :=
  mainRun_missing_env _ rfl

/-- C2 counterexample: running the Asset Copier with a nonexistent source
and a nonexistent destination does change the destination path — the
(empty) destination directory is created before the source-existence
check runs — so afterwards the destination exists, contrary to the
claim's "no directory is created there". -/
theorem copyAssets_missing_src_creates_dest :
    copyAssets none none = ⟨some .nil, true⟩ ∧
    (copyAssets none none).dest ≠ none := by
  exact ⟨by decide, by decide⟩

/-- C2 (amended): running the Asset Copier when the source directory does
not exist terminates normally (the operation is total — no exception),
logs the missing-source warning, and makes no change under the
destination path except creating the destination directory itself
(empty) when it is missing; existing destination contents are untouched
and nothing is copied. -/
theorem copyAssets_missing_src (destOpt : Option FsEntries) :
    copyAssets none destOpt = ⟨some (destOpt.getD .nil), true⟩ := rfl

/-- C5, code evaluated at the failing input: in a source tree containing
a directory literally named `README.md` holding the file `art.png`, the
directory branch of `copyRecursive` skips the whole directory, so
`art.png` — a file whose name is not `README.md` — has no copy at its
corresponding destination path, contrary to the claim (which matches the
spec's stated intent that only files named `README.md` are skipped). -/
theorem copyRecursive_readme_dir_bug :
    lookupPath
        (.cons readmeName (.dir (.cons (chars "art.png")
          (.file (chars "bytes")) .nil)) .nil)
        [readmeName, chars "art.png"] =
      some (.file (chars "bytes")) ∧
    copyRecursive
        (.cons readmeName (.dir (.cons (chars "art.png")
          (.file (chars "bytes")) .nil)) .nil) .nil = .nil := by
  exact ⟨by decide, by decide⟩

/-- C8: running the Environment Injector twice in succession with
unchanged source tree and unchanged `.env` file produces byte-identical
destination trees: the destination tree after the second run equals the
destination tree after the first, whatever the destination held
initially. -/
theorem mainRun_idempotent (e : List Char) (ses : FsEntries)
    (d : Option FsNode) :
    (mainRun (mainRun ⟨some e, some (.dir ses), d⟩).state).state.destTree =
      (mainRun ⟨some e, some (.dir ses), d⟩).state.destTree := rfl

theorem envLookup_cons_pos {kv : List Char × List Char}
    {m : List (List Char × List Char)} {q : List Char} (h : kv.1 = q) :
    envLookup (kv :: m) q = some kv.2 := by
  unfold envLookup
  rw [List.find?_cons_of_pos m (by simp [h])]
  rfl

theorem envLookup_cons_neg {kv : List Char × List Char}
    {m : List (List Char × List Char)} {q : List Char} (h : ¬ kv.1 = q) :
    envLookup (kv :: m) q = envLookup m q := by
  unfold envLookup
  rw [List.find?_cons_of_neg m (by simp [h])]

theorem envLookup_map_update_self (k v : List Char) :
    ∀ m : List (List Char × List Char), m.any (fun kv => kv.1 = k) = true →
      envLookup (m.map (fun kv => if kv.1 = k then (k, v) else kv)) k =
        some v := by
  intro m
  induction m with
  | nil => intro h; simp at h
  | cons kv m ih =>
    intro h
    by_cases hk : kv.1 = k
    · rw [List.map_cons, if_pos hk]
      exact envLookup_cons_pos rfl
    · rw [List.map_cons, if_neg hk, envLookup_cons_neg hk]
      apply ih
      simp only [List.any_cons, Bool.or_eq_true, decide_eq_true_eq] at h
      rcases h with h | h
      · exact absurd h hk
      · exact h

theorem envLookup_append_fresh (k v : List Char) :
    ∀ m : List (List Char × List Char), ¬ m.any (fun kv => kv.1 = k) = true →
      envLookup (m ++ [(k, v)]) k = some v := by
  intro m
  induction m with
  | nil => intro _; exact envLookup_cons_pos rfl
  | cons kv m ih =>
    intro h
    have hk : ¬ kv.1 = k := fun hc =>
      h (by simp only [List.any_cons, Bool.or_eq_true]; exact Or.inl (by simp [hc]))
    rw [List.cons_append, envLookup_cons_neg hk]
    exact ih (fun hc =>
      h (by simp only [List.any_cons, Bool.or_eq_true]; exact Or.inr hc))

theorem envLookup_map_update_other (k v q : List Char) (hq : ¬ q = k) :
    ∀ m, envLookup (m.map (fun kv => if kv.1 = k then (k, v) else kv)) q =
      envLookup m q := by
  intro m
  induction m with
  | nil => rfl
  | cons kv m ih =>
    by_cases hk : kv.1 = k
    · have h1 : ¬ ((k, v) : List Char × List Char).1 = q := fun hc => hq hc.symm
      have h2 : ¬ kv.1 = q := by rw [hk]; exact fun hc => hq hc.symm
      rw [List.map_cons, if_pos hk, envLookup_cons_neg h1,
        envLookup_cons_neg h2]
      exact ih
    · by_cases hkq : kv.1 = q
      · rw [List.map_cons, if_neg hk, envLookup_cons_pos hkq,
          envLookup_cons_pos hkq]
      · rw [List.map_cons, if_neg hk, envLookup_cons_neg hkq,
          envLookup_cons_neg hkq]
        exact ih

theorem envLookup_append_other (k v q : List Char) (hq : ¬ q = k) :
    ∀ m, envLookup (m ++ [(k, v)]) q = envLookup m q := by
  intro m
  induction m with
  | nil =>
    rw [List.nil_append,
      envLookup_cons_neg (fun hc => hq hc.symm : ¬ ((k, v) : List Char × List Char).1 = q)]
  | cons kv m ih =>
    by_cases hkq : kv.1 = q
    · rw [List.cons_append, envLookup_cons_pos hkq, envLookup_cons_pos hkq]
    · rw [List.cons_append, envLookup_cons_neg hkq, envLookup_cons_neg hkq]
      exact ih

theorem envLookup_objSet_self (k v : List Char) :
    ∀ m, envLookup (objSet m k v) k = some v := by
  intro m
  unfold objSet
  by_cases h : m.any (fun kv => kv.1 = k) = true
  · rw [if_pos h]; exact envLookup_map_update_self k v m h
  · rw [if_neg h]; exact envLookup_append_fresh k v m h

theorem envLookup_objSet_other (k v q : List Char) (hq : q ≠ k) :
    ∀ m, envLookup (objSet m k v) q = envLookup m q := by
  intro m
  unfold objSet
  by_cases h : m.any (fun kv => kv.1 = k) = true
  · rw [if_pos h]; exact envLookup_map_update_other k v q hq m
  · rw [if_neg h]; exact envLookup_append_other k v q hq m

theorem parseEnvLine_preserves (k w : List Char) (l : List Char)
    (hl : ∀ kv, lineKV l = some kv → kv.1 ≠ k) :
    ∀ m, envLookup m k = some w → envLookup (parseEnvLine m l) k = some w := by
  intro m hm
  unfold parseEnvLine
  cases hkv : lineKV l with
  | none => exact hm
  | some kv =>
    rw [envLookup_objSet_other kv.1 kv.2 k (fun hc => hl kv hkv hc.symm) m]
    exact hm

theorem foldl_parseEnvLine_preserves (k w : List Char) :
    ∀ (ls : List (List Char)) (m : List (List Char × List Char)),
    (∀ l ∈ ls, ∀ kv, lineKV l = some kv → kv.1 ≠ k) →
    envLookup m k = some w →
    envLookup (List.foldl parseEnvLine m ls) k = some w := by
  intro ls
  induction ls with
  | nil => intro m _ hm; exact hm
  | cons l ls ih =>
    intro m hls hm
    rw [List.foldl_cons]
    exact ih _ (fun x hx => hls x (List.mem_cons_of_mem _ hx))
      (parseEnvLine_preserves k w l (hls l (List.mem_cons_self _ _)) m hm)

/-- C9: when the same key appears on multiple non-comment lines of the
`.env` file, `loadEnvFile` neither errors nor rejects the file (it
returns `.ok`), and the key maps to the value of the last line assigning
it: whatever earlier lines assigned, after the last assigning line the
key holds that line's value and all later lines leave it unchanged. -/
theorem loadEnvFile_last_wins (contents : List Char)
    (pre post : List (List Char)) (line k w : List Char)
    (hsplit : splitCh (Char.ofNat 10) contents = pre ++ line :: post)
    (hline : lineKV line = some (k, w))
    (hpost : ∀ l ∈ post, ∀ kv, lineKV l = some kv → kv.1 ≠ k) :
    loadEnvFile (some contents) = .ok (parseEnv contents) ∧
    envLookup (parseEnv contents) k = some w := by
  refine ⟨rfl, ?_⟩
  unfold parseEnv
  rw [hsplit, List.foldl_append, List.foldl_cons]
  have hafter :
      envLookup (parseEnvLine (List.foldl parseEnvLine [] pre) line) k =
        some w := by
    unfold parseEnvLine
    rw [hline]
    exact envLookup_objSet_self k w _
  exact foldl_parseEnvLine_preserves k w post _ hpost hafter

theorem loadEnvFile_last_wins_witness :
    lineKV (chars "A=2") = some (chars "A", chars "2") ∧
    envLookup (parseEnv (chars "A=1\nA=2")) (chars "A") = some (chars "2") := by
  refine ⟨by decide, ?_⟩
  exact (loadEnvFile_last_wins (chars "A=1\nA=2") [chars "A=1"] []
    (chars "A=2") (chars "A") (chars "2") (by decide) (by decide)
    (fun l hl => absurd hl (List.not_mem_nil l))).2

theorem entriesInduction {motive : FsEntries → Prop} (hnil : motive .nil)
    (hcons : ∀ (n : List Char) (v : FsNode) (rest : FsEntries),
      motive rest → motive (.cons n v rest)) :
    ∀ es, motive es :=
  fun es =>
    @FsEntries.rec (fun _ => True) motive (fun _ => trivial)
      (fun _ _ => trivial) hnil (fun n v rest _ hr => hcons n v rest hr) es

theorem appendE_nil : ∀ d : FsEntries, appendE d .nil = d := by
  intro d
  induction d using entriesInduction with
  | hnil => rfl
  | hcons n v rest ih => simp only [appendE, ih]

theorem appendE_assoc : ∀ a b c : FsEntries,
    appendE (appendE a b) c = appendE a (appendE b c) := by
  intro a b c
  induction a using entriesInduction with
  | hnil => rfl
  | hcons n v rest ih => simp only [appendE, ih]

theorem hasName_appendE : ∀ (a b : FsEntries) (q : List Char),
    hasName (appendE a b) q = (hasName a q || hasName b q) := by
  intro a b q
  induction a using entriesInduction with
  | hnil => rfl
  | hcons n v rest ih => simp only [appendE, hasName, ih, Bool.or_assoc]

theorem lookupE_none_of_not_hasName : ∀ (des : FsEntries) (n : List Char),
    hasName des n = false → lookupE des n = none := by
  intro des n
  induction des using entriesInduction with
  | hnil => intro _; rfl
  | hcons m v rest ih =>
    intro h
    simp only [hasName, Bool.or_eq_false_iff, beq_eq_false_iff_ne, ne_eq] at h
    simp only [lookupE, if_neg h.1]
    exact ih h.2

theorem childDir_fresh {des : FsEntries} {n : List Char}
    (h : hasName des n = false) : childDir des n = .nil := by
  unfold childDir
  rw [lookupE_none_of_not_hasName des n h]

theorem setEntry_fresh {v : FsNode} : ∀ (des : FsEntries) (n : List Char),
    hasName des n = false →
    setEntry des n v = appendE des (.cons n v .nil) := by
  intro des n
  induction des using entriesInduction with
  | hnil => intro _; rfl
  | hcons m w rest ih =>
    intro h
    simp only [hasName, Bool.or_eq_false_iff, beq_eq_false_iff_ne, ne_eq] at h
    simp only [setEntry, if_neg h.1, appendE, ih h.2]

theorem namesFresh_nil_des : ∀ ses : FsEntries, namesFresh ses .nil = true := by
  intro ses
  induction ses using entriesInduction with
  | hnil => rfl
  | hcons n v rest ih => simp only [namesFresh, hasName, ih, Bool.not_false,
      Bool.and_self]

theorem namesFresh_extend {n : List Char} {v : FsNode} :
    ∀ (rest des : FsEntries), namesFresh rest des = true →
    hasName rest n = false →
    namesFresh rest (appendE des (.cons n v .nil)) = true := by
  intro rest
  induction rest using entriesInduction with
  | hnil => intro des _ _; rfl
  | hcons m w r ih =>
    intro des hf hn
    have hf1 : hasName des m = false ∧ namesFresh r des = true := by
      simpa [namesFresh] using hf
    have hn1 : ¬ m = n ∧ hasName r n = false := by
      simpa [hasName] using hn
    have hnm : (n == m) = false := by
      simp only [beq_eq_false_iff_ne, ne_eq]
      exact fun hc => hn1.1 hc.symm
    have hgoal1 : hasName (appendE des (.cons n v .nil)) m = false := by
      rw [hasName_appendE]
      simp [hasName, hf1.1, hnm]
    simp only [namesFresh, hgoal1, Bool.not_false, Bool.true_and]
    exact ih des hf1.2 hn1.2

theorem processFiles_fresh (env : List (List Char × List Char)) :
    ∀ ses des, wfEntries ses = true → namesFresh ses des = true →
      processFiles env ses des = appendE des (injectEntries env ses) := by
  intro ses des
  induction ses, des using processFiles.induct env with
  | case1 des =>
    intro _ _
    simp only [processFiles, injectEntries, appendE_nil]
  | case2 n sub rest des ihsub ihrest =>
    intro hwf hfresh
    have hwf1 : (hasName rest n = false ∧ wfEntries sub = true) ∧
        wfEntries rest = true := by
      simpa [wfEntries] using hwf
    have hfresh1 : hasName des n = false ∧ namesFresh rest des = true := by
      simpa [namesFresh] using hfresh
    have hchild : childDir des n = .nil := childDir_fresh hfresh1.1
    rw [hchild] at ihsub
    have hsub : processFiles env sub .nil = injectEntries env sub := by
      have := ihsub hwf1.1.2 (namesFresh_nil_des sub)
      simpa [appendE] using this
    show processFiles env rest
        (setEntry des n (.dir (processFiles env sub (childDir des n)))) = _
    rw [hchild, hsub, setEntry_fresh des n hfresh1.1] at ihrest ⊢
    rw [ihrest hwf1.2 (namesFresh_extend rest des hfresh1.2 hwf1.1.1)]
    rw [appendE_assoc]
    rfl
  | case3 n c rest des ihrest =>
    intro hwf hfresh
    have hwf1 : hasName rest n = false ∧ wfEntries rest = true := by
      simpa [wfEntries] using hwf
    have hfresh1 : hasName des n = false ∧ namesFresh rest des = true := by
      simpa [namesFresh] using hfresh
    show processFiles env rest
        (setEntry des n (.file (replacePlaceholders c env))) = _
    rw [setEntry_fresh des n hfresh1.1] at ihrest ⊢
    rw [ihrest hwf1.2 (namesFresh_extend rest des hfresh1.2 hwf1.1)]
    rw [appendE_assoc]
    rfl

theorem lookupE_inject (env : List (List Char × List Char)) :
    ∀ (ses : FsEntries) (n : List Char),
    lookupE (injectEntries env ses) n =
      match lookupE ses n with
      | none => none
      | some (.file c) => some (.file (replacePlaceholders c env))
      | some (.dir d) => some (.dir (injectEntries env d)) := by
  intro ses n
  induction ses using entriesInduction with
  | hnil => rfl
  | hcons m v rest ih =>
    cases v with
    | file c =>
      by_cases h : m = n
      · simp only [injectEntries, lookupE, if_pos h]
      · simp only [injectEntries, lookupE, if_neg h, ih]
    | dir d =>
      by_cases h : m = n
      · simp only [injectEntries, lookupE, if_pos h]
      · simp only [injectEntries, lookupE, if_neg h, ih]

theorem lookupPath_inject_none (env : List (List Char × List Char)) :
    ∀ (p : List (List Char)) (ses : FsEntries),
    lookupPath (injectEntries env ses) p = none ↔
      lookupPath ses p = none := by
  intro p
  induction p with
  | nil => intro ses; exact Iff.rfl
  | cons n ns ih =>
    intro ses
    cases ns with
    | nil =>
      show lookupE (injectEntries env ses) n = none ↔ lookupE ses n = none
      rw [lookupE_inject]
      cases h : lookupE ses n with
      | none => simp
      | some v => cases v <;> simp
    | cons n2 ns2 =>
      simp only [lookupPath]
      rw [lookupE_inject]
      cases h : lookupE ses n with
      | none => simp
      | some v =>
        cases v with
        | file c => simp
        | dir d => simpa using ih d

/-- C7: the injector's destination tree after a successful run is a pure
function of the source tree and the environment mapping — runs started
from arbitrary different prior destination states produce identical
destination trees — and, for a wellformed source tree, any path absent
from the source tree is absent from the destination afterwards: files
present in the destination before the run but not in the source do not
survive, because the destination is deleted before rebuilding. -/
theorem mainRun_pure (e : List Char) (ses : FsEntries)
    (d1 d2 : Option FsNode) :
    (mainRun ⟨some e, some (.dir ses), d1⟩).state.destTree =
      (mainRun ⟨some e, some (.dir ses), d2⟩).state.destTree ∧
    (wfEntries ses = true → ∀ p, lookupPath ses p = none →
      lookupPathD (mainRun ⟨some e, some (.dir ses), d1⟩).state.destTree p =
        none) := by
  refine ⟨rfl, ?_⟩
  intro hwf p hp
  show lookupPath (processFiles (parseEnv e) ses .nil) p = none
  rw [processFiles_fresh (parseEnv e) ses .nil hwf (namesFresh_nil_des ses)]
  show lookupPath (injectEntries (parseEnv e) ses) p = none
  exact (lookupPath_inject_none (parseEnv e) p ses).mpr hp

theorem mainRun_pure_witness :
    wfEntries (.cons (chars "app.js") (.file (chars "let x=1")) .nil) = true ∧
    lookupPath (.cons (chars "app.js") (.file (chars "let x=1")) .nil)
      [chars "stale.js"] = none ∧
    lookupPathD (mainRun ⟨some (chars "A=1"),
        some (.dir (.cons (chars "app.js") (.file (chars "let x=1")) .nil)),
        some (.dir (.cons (chars "stale.js") (.file (chars "old")) .nil))⟩
      ).state.destTree [chars "stale.js"] = none := by
  refine ⟨by decide, by decide, ?_⟩
  exact (mainRun_pure (chars "A=1")
    (.cons (chars "app.js") (.file (chars "let x=1")) .nil)
    (some (.dir (.cons (chars "stale.js") (.file (chars "old")) .nil)))
    none).2 (by decide) [chars "stale.js"] (by decide)

theorem braceFree_cons {c : Char} {l : List Char}
    (h : braceFree (c :: l) = true) :
    ¬ c = lb ∧ ¬ c = rb ∧ braceFree l = true := by
  have h2 := h
  simp only [braceFree, List.all_cons, Bool.and_eq_true] at h2
  refine ⟨?_, ?_, h2.2⟩
  · intro hc
    rcases h2.1 with ⟨h3, -⟩
    rw [hc] at h3
    simp at h3
  · intro hc
    rcases h2.1 with ⟨-, h4⟩
    rw [hc] at h4
    simp at h4

theorem lb_ne_rb : ¬ lb = rb := by decide

theorem placeholderOf_length (k : List Char) :
    (placeholderOf k).length = k.length + 4 := by
  simp [placeholderOf]

theorem placeholder_body_inj :
    ∀ (k u A B : List Char), braceFree k = true → braceFree u = true →
    k ++ rb :: rb :: A = u ++ rb :: rb :: B → k = u ∧ A = B := by
  intro k
  induction k with
  | nil =>
    intro u A B _ hu h
    cases u with
    | nil =>
      simp only [List.nil_append, List.cons.injEq, true_and] at h
      exact ⟨rfl, h⟩
    | cons c u2 =>
      rw [List.nil_append, List.cons_append] at h
      obtain ⟨h1, -⟩ := List.cons.inj h
      exact absurd h1.symm (braceFree_cons hu).2.1
  | cons a k2 ih =>
    intro u A B hk hu h
    cases u with
    | nil =>
      rw [List.cons_append, List.nil_append] at h
      obtain ⟨h1, -⟩ := List.cons.inj h
      exact absurd h1 (braceFree_cons hk).2.1
    | cons c u2 =>
      rw [List.cons_append, List.cons_append] at h
      obtain ⟨h1, h2⟩ := List.cons.inj h
      obtain ⟨h3, h4⟩ := ih u2 A B (braceFree_cons hk).2.2
        (braceFree_cons hu).2.2 h2
      exact ⟨by rw [h1, h3], h4⟩

theorem lb_after_body :
    ∀ (k x z t : List Char), braceFree k = true →
    x ++ lb :: z = k ++ rb :: rb :: t → k.length + 2 ≤ x.length := by
  intro k
  induction k with
  | nil =>
    intro x z t _ h
    rw [List.nil_append] at h
    match x with
    | [] =>
      rw [List.nil_append] at h
      exact absurd (List.cons.inj h).1 lb_ne_rb
    | [c] =>
      rw [List.cons_append, List.nil_append] at h
      obtain ⟨-, h2⟩ := List.cons.inj h
      exact absurd (List.cons.inj h2).1 lb_ne_rb
    | c1 :: c2 :: x2 =>
      simp only [List.length_cons, List.length_nil]
      omega
  | cons a k2 ih =>
    intro x z t hk h
    match x with
    | [] =>
      rw [List.nil_append, List.cons_append] at h
      exact absurd (List.cons.inj h).1.symm (braceFree_cons hk).1
    | c :: x2 =>
      rw [List.cons_append, List.cons_append] at h
      obtain ⟨-, h2⟩ := List.cons.inj h
      have := ih x2 z t (braceFree_cons hk).2.2 h2
      simp only [List.length_cons]
      omega

theorem placeholder_append (k tail : List Char) :
    placeholderOf k ++ tail = lb :: lb :: (k ++ rb :: rb :: tail) := by
  simp [placeholderOf]

theorem placeholder_no_overlap_front :
    ∀ (k u tail x y : List Char), braceFree k = true → braceFree u = true →
    ¬ k = u → placeholderOf k ++ tail = x ++ placeholderOf u ++ y →
    ∃ w, tail = w ++ placeholderOf u ++ y := by
  intro k u tail x y hk hu hne h
  have h0 := h
  rw [List.append_assoc] at h0
  match x with
  | [] =>
    exfalso
    have hN : lb :: lb :: (k ++ rb :: rb :: tail) =
        lb :: lb :: (u ++ rb :: rb :: y) := by
      simpa only [placeholderOf, List.cons_append, List.nil_append,
        List.append_assoc] using h
    obtain ⟨-, hN2⟩ := List.cons.inj hN
    obtain ⟨-, hN3⟩ := List.cons.inj hN2
    exact hne (placeholder_body_inj k u tail y hk hu hN3).1
  | [c] =>
    exfalso
    have hN : lb :: lb :: (k ++ rb :: rb :: tail) =
        c :: lb :: lb :: (u ++ rb :: rb :: y) := by
      simpa only [placeholderOf, List.cons_append, List.nil_append,
        List.append_assoc] using h
    obtain ⟨-, hN2⟩ := List.cons.inj hN
    obtain ⟨-, hN3⟩ := List.cons.inj hN2
    cases k with
    | nil =>
      rw [List.nil_append] at hN3
      exact absurd (List.cons.inj hN3).1 (fun hc => lb_ne_rb hc.symm)
    | cons a k2 =>
      rw [List.cons_append] at hN3
      exact absurd (List.cons.inj hN3).1 (braceFree_cons hk).1
  | c1 :: c2 :: x2 =>
    have hlenx : k.length + 4 ≤ (c1 :: c2 :: x2).length := by
      have hN : lb :: lb :: (k ++ rb :: rb :: tail) =
          c1 :: c2 :: (x2 ++ lb :: lb :: (u ++ rb :: rb :: y)) := by
        simpa only [placeholderOf, List.cons_append, List.nil_append,
          List.append_assoc] using h
      obtain ⟨-, hN2⟩ := List.cons.inj hN
      obtain ⟨-, hN3⟩ := List.cons.inj hN2
      have := lb_after_body k x2 (lb :: (u ++ rb :: rb :: y)) tail hk hN3.symm
      simp only [List.length_cons]
      omega
    rcases List.append_eq_append_iff.mp h0 with ⟨w, hx, htail⟩ | ⟨w, hq, hrest⟩
    · exact ⟨w, by rw [htail, ← List.append_assoc]⟩
    · have hw0 : w = [] := by
        have h1 : (placeholderOf k).length =
            (c1 :: c2 :: x2).length + w.length := by
          rw [hq, List.length_append]
        rw [placeholderOf_length] at h1
        exact List.eq_nil_of_length_eq_zero (by omega)
      subst hw0
      rw [List.nil_append] at hrest
      exact ⟨[], by rw [List.nil_append, ← hrest]⟩

theorem placeholder_no_overlap_suffix :
    ∀ (k u w v a y : List Char), braceFree k = true → braceFree u = true →
    placeholderOf u = w ++ v → w ≠ [] → v ≠ [] →
    placeholderOf k ++ a = v ++ y → False := by
  intro k u w v a y hk hu hsplit hw hv h
  match w, hw with
  | [c], _ =>
    have hsN : lb :: lb :: (u ++ [rb, rb]) = c :: v := by
      simpa only [placeholderOf, List.cons_append, List.nil_append] using hsplit
    obtain ⟨-, hv2⟩ := List.cons.inj hsN
    rw [← hv2] at h
    have hN : lb :: lb :: (k ++ rb :: rb :: a) =
        lb :: (u ++ rb :: rb :: y) := by
      simpa only [placeholderOf, List.cons_append, List.nil_append,
        List.append_assoc] using h
    obtain ⟨-, hN2⟩ := List.cons.inj hN
    cases u with
    | nil =>
      rw [List.nil_append] at hN2
      exact absurd (List.cons.inj hN2).1 lb_ne_rb
    | cons e u2 =>
      rw [List.cons_append] at hN2
      exact absurd (List.cons.inj hN2).1.symm (braceFree_cons hu).1
  | c :: c2 :: w2, _ =>
    match v, hv with
    | e :: v2, _ =>
      have hsN : lb :: lb :: (u ++ [rb, rb]) =
          c :: c2 :: (w2 ++ e :: v2) := by
        simpa only [placeholderOf, List.cons_append, List.nil_append] using hsplit
      obtain ⟨-, hs2⟩ := List.cons.inj hsN
      obtain ⟨-, hs3⟩ := List.cons.inj hs2
      have he : lb = e := by
        have hN : lb :: lb :: (k ++ rb :: rb :: a) = e :: (v2 ++ y) := by
          simpa only [placeholderOf, List.cons_append, List.nil_append,
            List.append_assoc] using h
        exact (List.cons.inj hN).1
      rw [← he] at hs3
      have hlen := lb_after_body u w2 v2 [] hu hs3.symm
      have hlen2 : u.length + 2 = w2.length + 1 + v2.length := by
        have := congrArg List.length hs3
        simp only [List.length_append, List.length_cons, List.length_nil] at this
        omega
      omega

theorem placeholder_in_gap_or_tail :
    ∀ (k u b a x y : List Char), braceFree k = true → braceFree u = true →
    ¬ k = u → b ++ placeholderOf k ++ a = x ++ placeholderOf u ++ y →
    InfixOf (placeholderOf u) b ∨ InfixOf (placeholderOf u) a := by
  intro k u b a x y hk hu hne h
  rw [List.append_assoc, List.append_assoc] at h
  rcases List.append_eq_append_iff.mp h with ⟨w, hx, hrest⟩ | ⟨w, hb, hrest⟩
  · rw [← List.append_assoc] at hrest
    obtain ⟨w2, hw2⟩ := placeholder_no_overlap_front k u a w y hk hu hne hrest
    exact Or.inr ⟨w2, y, hw2⟩
  · cases w with
    | nil =>
      rw [List.nil_append] at hrest
      have h2 : placeholderOf k ++ a = [] ++ placeholderOf u ++ y := by
        rw [List.nil_append]
        exact hrest.symm
      obtain ⟨w2, hw2⟩ := placeholder_no_overlap_front k u a [] y hk hu hne h2
      exact Or.inr ⟨w2, y, hw2⟩
    | cons c w1 =>
      rcases List.append_eq_append_iff.mp hrest with ⟨v, hw, hy⟩ |
        ⟨v, hphu, hrest2⟩
      · exact Or.inl ⟨x, v, by rw [hb, hw, List.append_assoc]⟩
      · cases v with
        | nil =>
          rw [List.append_nil] at hphu
          exact Or.inl ⟨x, [], by rw [hb, ← hphu, List.append_nil]⟩
        | cons e v2 =>
          exact absurd hrest2 (fun h2 => placeholder_no_overlap_suffix k u
            (c :: w1) (e :: v2) a y hk hu hphu (by simp) (by simp) h2)

theorem infix_nonempty {t : List Char} {c : Char}
    (h : InfixOf (c :: t) []) : False := by
  obtain ⟨x, y, hxy⟩ := h
  have hl := congrArg List.length hxy
  simp only [List.length_nil, List.length_append, List.length_cons] at hl
  omega

theorem jsRA_decomp (p : Char) (ps rep : List Char) :
    ∀ n (s pre : List Char), s.length ≤ n → InfixOf (p :: ps) s →
    ∃ b a, s = b ++ (p :: ps) ++ a ∧
      jsReplaceAllAux p ps rep pre s =
        b ++ expandRepl (p :: ps) (pre ++ b) a rep
          ++ jsReplaceAllAux p ps rep ((pre ++ b) ++ (p :: ps)) a := by
  intro n
  induction n with
  | zero =>
    intro s pre hlen htok
    have hs : s = [] := List.eq_nil_of_length_eq_zero (Nat.le_zero.mp hlen)
    subst hs
    exact absurd htok (fun h => infix_nonempty h)
  | succ n ih =>
    intro s pre hlen hinf
    cases s with
    | nil => exact absurd hinf (fun h => infix_nonempty h)
    | cons c rest =>
      by_cases hm : (p :: ps).isPrefixOf (c :: rest) = true
      · obtain ⟨t, ht⟩ := List.isPrefixOf_iff_prefix.mp hm
        have hdrop : rest.drop ps.length = t := by
          have h2 : rest = ps ++ t := (List.cons.inj ht).2.symm
          rw [h2, List.drop_left]
        refine ⟨[], rest.drop ps.length, ?_, ?_⟩
        · rw [List.nil_append, hdrop, ← ht]
        · rw [jsRA_cons_pos p ps rep pre hm]
          simp only [List.nil_append, List.append_nil]
      · have hx : ∃ x2 y2, rest = x2 ++ (p :: ps) ++ y2 := by
          obtain ⟨x, y, hxy⟩ := hinf
          cases x with
          | nil =>
            exfalso
            apply hm
            rw [List.isPrefixOf_iff_prefix]
            rw [List.nil_append] at hxy
            exact ⟨y, hxy.symm⟩
          | cons cx x2 =>
            have hxy2 : c :: rest = cx :: (x2 ++ (p :: ps) ++ y) := by
              simpa only [List.cons_append] using hxy
            exact ⟨x2, y, (List.cons.inj hxy2).2⟩
        obtain ⟨x2, y2, hrest⟩ := hx
        have hm2 : (p :: ps).isPrefixOf (c :: rest) = false := by
          rw [Bool.eq_false_iff]; exact hm
        obtain ⟨b2, a2, hsplit, heq⟩ := ih rest (pre ++ [c])
          (by simp only [List.length_cons] at hlen; omega) ⟨x2, y2, hrest⟩
        refine ⟨c :: b2, a2, ?_, ?_⟩
        · rw [hsplit]; simp [List.cons_append]
        · rw [jsRA_cons_neg p ps rep pre hm2, heq]
          simp [List.cons_append, List.append_assoc]

theorem jsRA_noMatch (p : Char) (ps rep : List Char) :
    ∀ n (s pre : List Char), s.length ≤ n → ¬ InfixOf (p :: ps) s →
    jsReplaceAllAux p ps rep pre s = s := by
  intro n
  induction n with
  | zero =>
    intro s pre hlen _
    have hs : s = [] := List.eq_nil_of_length_eq_zero (Nat.le_zero.mp hlen)
    subst hs; rfl
  | succ n ih =>
    intro s pre hlen hni
    cases s with
    | nil => rfl
    | cons c rest =>
      have hm2 : (p :: ps).isPrefixOf (c :: rest) = false := by
        rw [Bool.eq_false_iff]
        intro hm
        obtain ⟨t, ht⟩ := List.isPrefixOf_iff_prefix.mp hm
        exact hni ⟨[], t, by rw [List.nil_append, ← ht]⟩
      have hrest : ¬ InfixOf (p :: ps) rest := by
        rintro ⟨x, y, hxy⟩
        exact hni ⟨c :: x, y, by rw [hxy]; simp [List.cons_append]⟩
      rw [jsRA_cons_neg p ps rep pre hm2,
        ih rest (pre ++ [c]) (by simp only [List.length_cons] at hlen; omega)
          hrest]

theorem jsRA_preserves_token (k u rep : List Char)
    (hk : braceFree k = true) (hu : braceFree u = true) (hne : ¬ k = u) :
    ∀ n (s pre : List Char), s.length ≤ n →
    InfixOf (placeholderOf u) s →
    InfixOf (placeholderOf u)
      (jsReplaceAllAux lb (lb :: (k ++ [rb, rb])) rep pre s) := by
  intro n
  induction n with
  | zero =>
    intro s pre hlen htok
    have hs : s = [] := List.eq_nil_of_length_eq_zero (Nat.le_zero.mp hlen)
    subst hs
    exact absurd htok (fun h => infix_nonempty h)
  | succ n ih =>
    intro s pre hlen htok
    by_cases hpat : InfixOf (placeholderOf k) s
    · obtain ⟨b, a, hsplit, heq⟩ := jsRA_decomp lb (lb :: (k ++ [rb, rb])) rep
        (n + 1) s pre hlen hpat
      rw [heq]
      obtain ⟨x, y, hxy⟩ := htok
      have hco : b ++ placeholderOf k ++ a = x ++ placeholderOf u ++ y := by
        have h1 : b ++ placeholderOf k ++ a = s := by
          rw [hsplit]; rfl
        rw [h1, hxy]
      rcases placeholder_in_gap_or_tail k u b a x y hk hu hne hco with hB | hA
      · obtain ⟨x1, y1, hb1⟩ := hB
        refine ⟨x1, y1 ++ expandRepl (lb :: (lb :: (k ++ [rb, rb])))
          (pre ++ b) a rep ++ jsReplaceAllAux lb (lb :: (k ++ [rb, rb])) rep
          ((pre ++ b) ++ (lb :: (lb :: (k ++ [rb, rb])))) a, ?_⟩
        rw [hb1]
        simp [List.append_assoc]
      · have halen : a.length ≤ n := by
          have h2 := congrArg List.length hsplit
          simp only [List.length_append, List.length_cons] at h2
          omega
        obtain ⟨x2, y2, ha2⟩ := ih a
          ((pre ++ b) ++ (lb :: (lb :: (k ++ [rb, rb])))) halen hA
        refine ⟨b ++ expandRepl (lb :: (lb :: (k ++ [rb, rb])))
          (pre ++ b) a rep ++ x2, y2, ?_⟩
        rw [ha2]
        simp [List.append_assoc]
    · rw [jsRA_noMatch lb (lb :: (k ++ [rb, rb])) rep (n + 1) s pre hlen
        (fun h => hpat h)]
      exact htok

theorem replaceOne_preserves_token (key u value content : List Char)
    (hkey : braceFree key = true) (hu : braceFree u = true)
    (hne : ¬ key = u)
    (htok : InfixOf (placeholderOf u) content) :
    InfixOf (placeholderOf u) (replaceOne content key value) := by
  unfold replaceOne
  rw [regexLitDenote_escape]
  exact jsRA_preserves_token key u value hkey hu hne content.length content []
    le_rfl htok

theorem replacePlaceholders_preserves_token
    (u : List Char) (hu : braceFree u = true) :
    ∀ (kvs : List (List Char × List Char)) (content : List Char),
    (∀ kv ∈ kvs, braceFree kv.1 = true) →
    (∀ kv ∈ kvs, ¬ kv.1 = u) →
    InfixOf (placeholderOf u) content →
    InfixOf (placeholderOf u) (replacePlaceholders content kvs) := by
  intro kvs
  induction kvs with
  | nil => intro content _ _ htok; exact htok
  | cons kv rest ih =>
    intro content hbf habs htok
    show InfixOf (placeholderOf u)
      (replacePlaceholders (replaceOne content kv.1 kv.2) rest)
    exact ih _ (fun x hx => hbf x (List.mem_cons_of_mem _ hx))
      (fun x hx => habs x (List.mem_cons_of_mem _ hx))
      (replaceOne_preserves_token kv.1 u kv.2 content
        (hbf kv (List.mem_cons_self _ _)) hu
        (habs kv (List.mem_cons_self _ _)) htok)

theorem lookupPath_inject_file (env : List (List Char × List Char)) :
    ∀ (p : List (List Char)) (ses : FsEntries) (c : List Char),
    lookupPath ses p = some (.file c) →
    lookupPath (injectEntries env ses) p =
      some (.file (replacePlaceholders c env)) := by
  intro p
  induction p with
  | nil => intro ses c h; simp [lookupPath] at h
  | cons n ns ih =>
    intro ses c h
    cases ns with
    | nil =>
      show lookupE (injectEntries env ses) n = _
      rw [lookupE_inject]
      have h2 : lookupE ses n = some (.file c) := h
      rw [h2]
    | cons n2 ns2 =>
      simp only [lookupPath] at h ⊢
      rw [lookupE_inject]
      cases hl : lookupE ses n with
      | none => rw [hl] at h; simp at h
      | some v =>
        cases v with
        | file c2 => rw [hl] at h; simp at h
        | dir d =>
          rw [hl] at h
          exact ih d c h

/-- C6 counterexample: the claim quantifies over every environment
mapping, but a key containing brace characters can overlap the
`{{UNKNOWN}}` token and erase it: with the single key `UNKNOWN}}{{X`
(value `gone`, key not equal to `UNKNOWN`) and content
`{{UNKNOWN}}{{X}}` — which contains the literal token `{{UNKNOWN}}` —
the whole content is one occurrence of that key's placeholder, so the
output is `gone`, which no longer contains the token. -/
theorem replacePlaceholders_unknown_token_counterexample :
    InfixOf (placeholderOf (chars "UNKNOWN"))
      (chars "\x7b\x7bUNKNOWN\x7d\x7d\x7b\x7bX\x7d\x7d") ∧
    (∀ kv ∈ [(chars "UNKNOWN\x7d\x7d\x7b\x7bX", chars "gone")],
      ¬ kv.1 = chars "UNKNOWN") ∧
    replacePlaceholders (chars "\x7b\x7bUNKNOWN\x7d\x7d\x7b\x7bX\x7d\x7d")
      [(chars "UNKNOWN\x7d\x7d\x7b\x7bX", chars "gone")] = chars "gone" ∧
    ¬ InfixOf (placeholderOf (chars "UNKNOWN")) (chars "gone") := by
  refine ⟨⟨[], chars "\x7b\x7bX\x7d\x7d", by decide⟩, by decide, by decide, ?_⟩
  rintro ⟨x, y, hxy⟩
  have hlen := congrArg List.length hxy
  rw [List.length_append, List.length_append, placeholderOf_length] at hlen
  have h4 : (chars "gone").length = 4 := by decide
  have h7 : (chars "UNKNOWN").length = 7 := by decide
  omega

/-- C6 (amended): for every environment mapping whose keys are brace-free
and do not include `UNKNOWN`, and every wellformed source tree file whose
content contains the literal token `{{UNKNOWN}}`, `replacePlaceholders`
leaves an occurrence of the token verbatim in its output (not blanked,
not erased), and the corresponding destination file written by
`processFiles` holds exactly that output, hence retains the token.  (Keys
containing braces can overlap and erase the token — the counterexample —
so the claim is amended to brace-free keys, which covers every real
environment variable name.) -/
theorem processFiles_retains_unknown_token
    (env : List (List Char × List Char)) (ses : FsEntries)
    (p : List (List Char)) (c u : List Char)
    (hwf : wfEntries ses = true)
    (hkeys : ∀ kv ∈ env, braceFree kv.1 = true)
    (hu : braceFree u = true)
    (habsent : ∀ kv ∈ env, ¬ kv.1 = u)
    (hfile : lookupPath ses p = some (.file c))
    (htok : InfixOf (placeholderOf u) c) :
    InfixOf (placeholderOf u) (replacePlaceholders c env) ∧
    lookupPath (processFiles env ses .nil) p =
      some (.file (replacePlaceholders c env)) := by
  refine ⟨replacePlaceholders_preserves_token u hu env c hkeys habsent htok,
    ?_⟩
  rw [processFiles_fresh env ses .nil hwf (namesFresh_nil_des ses)]
  show lookupPath (injectEntries env ses) p = _
  exact lookupPath_inject_file env p ses c hfile

theorem processFiles_retains_unknown_token_witness :
    lookupPath (processFiles [(chars "A", chars "1")]
        (.cons (chars "cfg.js")
          (.file (chars "v=\x7b\x7bA\x7d\x7d;u=\x7b\x7bUNKNOWN\x7d\x7d;"))
          .nil) .nil)
      [chars "cfg.js"] =
      some (.file (replacePlaceholders
        (chars "v=\x7b\x7bA\x7d\x7d;u=\x7b\x7bUNKNOWN\x7d\x7d;")
        [(chars "A", chars "1")])) ∧
    InfixOf (placeholderOf (chars "UNKNOWN"))
      (replacePlaceholders
        (chars "v=\x7b\x7bA\x7d\x7d;u=\x7b\x7bUNKNOWN\x7d\x7d;")
        [(chars "A", chars "1")]) := by
  have h := processFiles_retains_unknown_token [(chars "A", chars "1")]
    (.cons (chars "cfg.js")
      (.file (chars "v=\x7b\x7bA\x7d\x7d;u=\x7b\x7bUNKNOWN\x7d\x7d;")) .nil)
    [chars "cfg.js"]
    (chars "v=\x7b\x7bA\x7d\x7d;u=\x7b\x7bUNKNOWN\x7d\x7d;")
    (chars "UNKNOWN")
    (by decide) (by decide) (by decide) (by decide) (by decide)
    ⟨chars "v=\x7b\x7bA\x7d\x7d;u=", chars ";", by decide⟩
  exact ⟨h.2, h.1⟩
